import Mathlib

/-!
A verification development for the approx crate (src/lib.rs): exact
bit-level models of the f32/f64 implementations of `relative_eq` and
`ulps_eq`, of the strategy configurators, and proofs about them.

A floating-point value of a format with `eb` exponent bits and `mb`
mantissa bits is its bit pattern, a natural number below `2 ^ (eb+mb+1)`.
Every finite value of such a format is an integer multiple of the
smallest positive subnormal `2 ^ (1 - bias - mb)`; finite values are
represented by that integer, so IEEE-754 subtraction and multiplication
in round-to-nearest-even are exact integer computations followed by an
explicit rounding step.
-/

/-- An IEEE-754 binary interchange format: `eb` exponent bits and `mb`
explicit mantissa bits. -/
structure Fmt where
  eb : Nat
  mb : Nat
deriving DecidableEq

/-- Total width in bits (one sign bit). -/
def Fmt.w (fmt : Fmt) : Nat := fmt.eb + fmt.mb + 1

/-- Exponent bias of the format. -/
def Fmt.bias (fmt : Fmt) : Nat := 2 ^ (fmt.eb - 1) - 1

/-- Rust's `f32` (binary32). -/
def f32 : Fmt := ⟨8, 23⟩

/-- Rust's `f64` (binary64). -/
def f64 : Fmt := ⟨11, 52⟩

/-- Mantissa field of a bit pattern. -/
def manF (fmt : Fmt) (x : Nat) : Nat := x % 2 ^ fmt.mb

/-- Biased exponent field of a bit pattern. -/
def expF (fmt : Fmt) (x : Nat) : Nat := x / 2 ^ fmt.mb % 2 ^ fmt.eb

/-- Sign bit of a bit pattern (bit patterns are below `2 ^ fmt.w`). -/
def sgnB (fmt : Fmt) (x : Nat) : Bool := decide (2 ^ (fmt.eb + fmt.mb) ≤ x)

/-- Whether a bit pattern encodes a NaN. -/
def isNaN (fmt : Fmt) (x : Nat) : Bool :=
  decide (expF fmt x = 2 ^ fmt.eb - 1) && decide (manF fmt x ≠ 0)

/-- The semantic class of a floating-point datum: NaN, a signed
infinity, or a finite value given as an integer in units of the
smallest positive subnormal `2 ^ (1 - bias - mb)`.  The sign of a
floating-point zero is dropped: it is unobservable through the
comparisons, the absolute value and the products the library performs
on computed values. -/
inductive FpCls where
  | nan : FpCls
  | inf : Bool → FpCls
  | fin : Int → FpCls
deriving DecidableEq

/-- Magnitude of a (non-special) bit pattern in subnormal units. -/
def posMag (fmt : Fmt) (x : Nat) : Nat :=
  if expF fmt x = 0 then manF fmt x
  else (2 ^ fmt.mb + manF fmt x) * 2 ^ (expF fmt x - 1)

/-- Decode a bit pattern into its semantic class. -/
def classify (fmt : Fmt) (x : Nat) : FpCls :=
  if expF fmt x = 2 ^ fmt.eb - 1 then
    if manF fmt x = 0 then .inf (sgnB fmt x) else .nan
  else if sgnB fmt x then .fin (-(posMag fmt x : Int))
  else .fin (posMag fmt x)

/-- IEEE equality (`==` on floats): NaN compares unequal to everything,
infinities compare by sign, finite values by value (so `-0.0 == +0.0`). -/
def clsEq : FpCls → FpCls → Bool
  | .inf s1, .inf s2 => decide (s1 = s2)
  | .fin m1, .fin m2 => decide (m1 = m2)
  | _, _ => false

/-- IEEE `≤` on floats: false whenever a NaN is involved. -/
def clsLe : FpCls → FpCls → Bool
  | .nan, _ => false
  | _, .nan => false
  | .inf s1, .inf s2 => s1 || !s2
  | .inf s1, .fin _ => s1
  | .fin _, .inf s2 => !s2
  | .fin m1, .fin m2 => decide (m1 ≤ m2)

/-- IEEE `<` on floats: false whenever a NaN is involved. -/
def clsLt : FpCls → FpCls → Bool
  | .nan, _ => false
  | _, .nan => false
  | .inf s1, .inf s2 => s1 && !s2
  | .inf s1, .fin _ => s1
  | .fin _, .inf s2 => !s2
  | .fin m1, .fin m2 => decide (m1 < m2)

/-- Absolute value of a float (clears the sign bit). -/
def clsAbs : FpCls → FpCls
  | .nan => .nan
  | .inf _ => .inf false
  | .fin m => .fin (m.natAbs : Int)

/-- Auxiliary bit-length recursion on an explicit fuel. -/
def bitlenAux : Nat → Nat → Nat
  | 0, _ => 0
  | fuel + 1, n => if n = 0 then 0 else bitlenAux fuel (n / 2) + 1

/-- Number of binary digits of `n` (zero for `n = 0`). -/
def bitlen (n : Nat) : Nat := bitlenAux n n

/-- Round-to-nearest-even of `q + r / g`, assuming `0 ≤ r < g`. -/
def rnRound (q r g : Nat) : Nat :=
  if 2 * r < g then q
  else if g < 2 * r then q + 1
  else if q % 2 = 0 then q else q + 1

/-- Exponent of the rounding granularity, in subnormal units, for a
value `n / 2 ^ s` given in `2 ^ (-s)` subnormal units: zero below the
normal range of the precision, otherwise determined by the binade. -/
def rnShift (fmt : Fmt) (n s : Nat) : Nat := bitlen n - (s + fmt.mb + 1)

/-- Round the positive value `n / 2 ^ s` (subnormal units) to the
precision of the format, round-to-nearest ties-to-even, with unbounded
exponent range.  The result is in subnormal units. -/
def roundNat (fmt : Fmt) (n s : Nat) : Nat :=
  rnRound (n / 2 ^ (rnShift fmt n s + s)) (n % 2 ^ (rnShift fmt n s + s))
      (2 ^ (rnShift fmt n s + s)) * 2 ^ rnShift fmt n s

/-- Largest finite magnitude of the format, in subnormal units. -/
def maxFinM (fmt : Fmt) : Nat := (2 ^ (fmt.mb + 1) - 1) * 2 ^ (2 ^ fmt.eb - 3)

/-- Round the value `p / 2 ^ s` (subnormal units) to the format:
round-to-nearest ties-to-even, overflowing to an infinity when the
rounded magnitude exceeds the largest finite value. -/
def roundDyadic (fmt : Fmt) (p : Int) (s : Nat) : FpCls :=
  if p = 0 then .fin 0
  else
    let n := roundNat fmt p.natAbs s
    if maxFinM fmt < n then .inf (decide (p < 0))
    else if p < 0 then .fin (-(n : Int)) else .fin (n : Int)

/-- IEEE-754 subtraction of two classified values (round to nearest,
ties to even). -/
def clsSub (fmt : Fmt) : FpCls → FpCls → FpCls
  | .nan, _ => .nan
  | _, .nan => .nan
  | .inf s1, .inf s2 => if s1 = s2 then .nan else .inf s1
  | .inf s1, .fin _ => .inf s1
  | .fin _, .inf s2 => .inf (!s2)
  | .fin m1, .fin m2 => roundDyadic fmt (m1 - m2) 0

/-- Scale of the exact product of two finite values: a product of two
values in subnormal units is in `2 ^ (-(bias + mb - 1))` subnormal
units. -/
def mulScale (fmt : Fmt) : Nat := fmt.bias + fmt.mb - 1

/-- IEEE-754 multiplication of two classified values (round to
nearest, ties to even). -/
def clsMul (fmt : Fmt) : FpCls → FpCls → FpCls
  | .nan, _ => .nan
  | _, .nan => .nan
  | .inf s1, .inf s2 => .inf (xor s1 s2)
  | .inf s1, .fin m => if m = 0 then .nan else .inf (xor s1 (decide (m < 0)))
  | .fin m, .inf s2 => if m = 0 then .nan else .inf (xor (decide (m < 0)) s2)
  | .fin m1, .fin m2 => roundDyadic fmt (m1 * m2) (mulScale fmt)

/-- Rust's `signum`: `1.0` for positive values including `+0.0`, `-1.0`
for negative values including `-0.0`, NaN for NaN.  `1.0` in subnormal
units is `2 ^ mb * 2 ^ (bias - 1)`. -/
def signumF (fmt : Fmt) (x : Nat) : FpCls :=
  if isNaN fmt x then .nan
  else if sgnB fmt x then .fin (-((2 ^ fmt.mb * 2 ^ (fmt.bias - 1) : Nat) : Int))
  else .fin ((2 ^ fmt.mb * 2 ^ (fmt.bias - 1) : Nat) : Int)

/-- Reinterpret a bit pattern as a two's-complement signed integer of
the format's width (the `transmute` in `ulps_eq`). -/
def toInt (fmt : Fmt) (x : Nat) : Int :=
  if x < 2 ^ (fmt.w - 1) then (x : Int) else (x : Int) - ((2 ^ fmt.w : Nat) : Int)

/-- Reduce an integer into the two's-complement range of width `w`:
this models wrapping casts and wrapping arithmetic on `iN`/`uN`. -/
def iwrap (w : Nat) (z : Int) : Int :=
  (z + (2 : Int) ^ (w - 1)) % (2 : Int) ^ w - (2 : Int) ^ (w - 1)

/-- The `ulps_eq` implementation for a primitive float (lib.rs lines
226-247): absolute-difference short-circuit against `epsilon`, then the
`signum` test, then comparison of the absolute difference of the bit
patterns reinterpreted as signed integers against `max_ulps as iN`. -/
def ulpsEq (fmt : Fmt) (a b eps maxUlps : Nat) : Bool :=
  let absDiff := clsAbs (clsSub fmt (classify fmt a) (classify fmt b))
  if clsLe absDiff (classify fmt eps) then true
  else if !(clsEq (signumF fmt a) (signumF fmt b)) then false
  else
    decide (iwrap fmt.w ((iwrap fmt.w (toInt fmt a - toInt fmt b)).natAbs : Int)
      < iwrap fmt.w (maxUlps : Int))

/-- The `relative_eq` implementation for a primitive float (lib.rs
lines 195-223): IEEE equality, absolute-difference short-circuit,
opposite-infinity guard, then the relative-difference test. -/
def relativeEq (fmt : Fmt) (a b eps maxRel : Nat) : Bool :=
  let ca := classify fmt a
  let cb := classify fmt b
  if clsEq ca cb then true
  else
    let absDiff := clsAbs (clsSub fmt ca cb)
    if clsLe absDiff (classify fmt eps) then true
    else
      let absSelf := clsAbs ca
      let absOther := clsAbs cb
      if clsEq absSelf absOther && clsEq absDiff absSelf then false
      else
        let largest := if clsLt absSelf absOther then absOther else absSelf
        clsLe absDiff (clsMul fmt largest (classify fmt maxRel))

/-- Bit pattern of the machine epsilon of the format (the value
`2 ^ (-mb)`), which is `default_epsilon` and `default_max_relative`. -/
def epsBits (fmt : Fmt) : Nat := (fmt.bias - fmt.mb) * 2 ^ fmt.mb

/-- The `default_max_ulps` of both primitive implementations. -/
def defaultMaxUlps : Nat := 4

/-- Bit pattern of positive infinity. -/
def posInfBits (fmt : Fmt) : Nat := (2 ^ fmt.eb - 1) * 2 ^ fmt.mb

/-- Bit pattern of negative infinity. -/
def negInfBits (fmt : Fmt) : Nat := 2 ^ (fmt.eb + fmt.mb) + posInfBits fmt

/-- The larger of two floats, as the spec's `max(|a|, |b|)` (selected
with the IEEE comparison the code uses). -/
def fmaxC (c d : FpCls) : FpCls := if clsLt c d then d else c

/-- Whether a classified tolerance is non-negative (not NaN and not
negative). -/
def nonnegC : FpCls → Bool
  | .nan => false
  | .inf s => !s
  | .fin m => decide (0 ≤ m)

/-- Modelled from the spec's description of `relative_eq(a, b, ε, ρ)`
(§4.2): the four clauses in their stated order of evaluation. -/
def relClaimSpec (fmt : Fmt) (a b eps maxRel : Nat) : Bool :=
  let ca := classify fmt a
  let cb := classify fmt b
  let absDiff := clsAbs (clsSub fmt ca cb)
  if clsEq ca cb then true
  else if clsLe absDiff (classify fmt eps) then true
  else if clsEq (clsAbs ca) (clsAbs cb) && clsEq absDiff (clsAbs ca) then false
  else clsLe absDiff (clsMul fmt (fmaxC (clsAbs ca) (clsAbs cb)) (classify fmt maxRel))

/-- Modelled from claim C1's description of `ulps_eq(a, b, ε, U)` as
stated: the final clause compares the absolute difference of the signed
reinterpretations against the unsigned argument `U` itself. -/
def ulpsClaimSpec (fmt : Fmt) (a b eps maxUlps : Nat) : Bool :=
  if clsLe (clsAbs (clsSub fmt (classify fmt a) (classify fmt b))) (classify fmt eps)
    then true
  else if !(clsEq (signumF fmt a) (signumF fmt b)) then false
  else decide ((toInt fmt a - toInt fmt b).natAbs < maxUlps)

/-- The amended claim C1: the final clause compares the exact absolute
difference of the signed reinterpretations against `U` converted to the
same-width signed integer (which is `U` itself for f64, and is negative
for f32 when `U ≥ 2^31`). -/
def ulpsClaimAmended (fmt : Fmt) (a b eps maxUlps : Nat) : Bool :=
  if clsLe (clsAbs (clsSub fmt (classify fmt a) (classify fmt b))) (classify fmt eps)
    then true
  else if !(clsEq (signumF fmt a) (signumF fmt b)) then false
  else decide (((toInt fmt a - toInt fmt b).natAbs : Int) < iwrap fmt.w (maxUlps : Int))

/-- The `Relative` configurator (lib.rs lines 336-341): tolerances for
a relative comparison over a tolerance type `E`. -/
structure Relative (E : Type) where
  epsilon : E
  max_relative : E

/-- The builder method `Relative::epsilon` (lib.rs lines 360-365):
replace the epsilon, keep the rest of the receiver. -/
def Relative.setEpsilon {E : Type} (c : Relative E) (e : E) : Relative E :=
  { c with epsilon := e }

/-- The builder method `Relative::max_relative` (lib.rs lines 369-374):
replace the maximum relative value, keep the rest of the receiver. -/
def Relative.setMaxRelative {E : Type} (c : Relative E) (r : E) : Relative E :=
  { c with max_relative := r }

/-- The `Ulps` configurator (lib.rs lines 407-412). -/
structure Ulps (E : Type) where
  epsilon : E
  max_ulps : Nat

/-- The builder method `Ulps::epsilon` (lib.rs lines 431-436). -/
def Ulps.setEpsilon {E : Type} (c : Ulps E) (e : E) : Ulps E :=
  { c with epsilon := e }

/-- The builder method `Ulps::max_ulps` (lib.rs lines 440-445). -/
def Ulps.setMaxUlps {E : Type} (c : Ulps E) (u : Nat) : Ulps E :=
  { c with max_ulps := u }

/-- `Relative::default()` for a primitive float: both fields are the
machine epsilon. -/
def relativeDefault (fmt : Fmt) : Relative Nat := ⟨epsBits fmt, epsBits fmt⟩

/-- `Ulps::default()` for a primitive float: machine epsilon and four
ULPs. -/
def ulpsDefault (fmt : Fmt) : Ulps Nat := ⟨epsBits fmt, defaultMaxUlps⟩

/-! ### Basic lemmas about the classification and the comparisons -/

theorem clsEq_nan_left (c : FpCls) : clsEq .nan c = false := by
  cases c <;> rfl

theorem clsEq_nan_right (c : FpCls) : clsEq c .nan = false := by
  cases c <;> rfl

theorem clsLe_nan_left (c : FpCls) : clsLe .nan c = false := by
  cases c <;> rfl

theorem clsLe_nan_right (c : FpCls) : clsLe c .nan = false := by
  cases c <;> rfl

theorem clsSub_nan_left (fmt : Fmt) (c : FpCls) : clsSub fmt .nan c = .nan := by
  cases c <;> rfl

theorem clsSub_nan_right (fmt : Fmt) (c : FpCls) : clsSub fmt c .nan = .nan := by
  cases c <;> rfl

theorem clsEq_self_of_ne_nan (c : FpCls) (h : c ≠ .nan) : clsEq c c = true := by
  cases c with
  | nan => exact absurd rfl h
  | inf s => simp [clsEq]
  | fin m => simp [clsEq]

theorem clsLe_zero_left_of_nonneg (c : FpCls) (h : nonnegC c = true) :
    clsLe (.fin 0) c = true := by
  cases c with
  | nan => simp [nonnegC] at h
  | inf s => simp [nonnegC] at h; simp [clsLe, h]
  | fin m => simp [nonnegC] at h; simp [clsLe, h]

/-! ### Bit length and rounding positivity -/

theorem bitlenAux_zero (fuel : Nat) : bitlenAux fuel 0 = 0 := by
  cases fuel <;> simp [bitlenAux]

theorem bitlenAux_bounds (fuel : Nat) :
    ∀ n, 1 ≤ n → n ≤ fuel →
      2 ^ (bitlenAux fuel n - 1) ≤ n ∧ n < 2 ^ bitlenAux fuel n := by
  induction fuel with
  | zero => intro n h1 h2; omega
  | succ fuel ih =>
    intro n h1 h2
    simp only [bitlenAux]
    rw [if_neg (by omega)]
    rcases Nat.lt_or_ge n 2 with h | h
    · have hn1 : n = 1 := by omega
      subst hn1
      norm_num [bitlenAux_zero]
    · have hrec := ih (n / 2) (by omega) (by omega)
      rcases hrec with ⟨hlo, hhi⟩
      have hb1 : 1 ≤ bitlenAux fuel (n / 2) := by
        rcases Nat.eq_zero_or_pos (bitlenAux fuel (n / 2)) with h0 | h0
        · rw [h0] at hhi; simp at hhi; omega
        · exact h0
      constructor
      · have hpow : 2 ^ bitlenAux fuel (n / 2)
            = 2 * 2 ^ (bitlenAux fuel (n / 2) - 1) := by
          conv_lhs => rw [show bitlenAux fuel (n / 2)
            = (bitlenAux fuel (n / 2) - 1) + 1 by omega]
          rw [pow_succ]; ring
        simp only [Nat.add_sub_cancel]
        omega
      · have hpow : 2 ^ (bitlenAux fuel (n / 2) + 1)
            = 2 * 2 ^ bitlenAux fuel (n / 2) := by
          rw [pow_succ]; ring
        omega

theorem bitlen_bounds (n : Nat) (h : 1 ≤ n) :
    2 ^ (bitlen n - 1) ≤ n ∧ n < 2 ^ bitlen n :=
  bitlenAux_bounds n n h le_rfl

theorem bitlen_pos (n : Nat) (h : 1 ≤ n) : 1 ≤ bitlen n := by
  rcases Nat.eq_zero_or_pos (bitlen n) with h0 | h0
  · have := (bitlen_bounds n h).2
    rw [h0] at this; simp at this; omega
  · exact h0

theorem rnRound_ge (q r g : Nat) : q ≤ rnRound q r g := by
  unfold rnRound
  repeat' split
  all_goals omega

theorem roundNat_pos (fmt : Fmt) (n : Nat) (hn : 1 ≤ n) :
    1 ≤ roundNat fmt n 0 := by
  unfold roundNat
  have hbl := bitlen_bounds n hn
  have hk : rnShift fmt n 0 ≤ bitlen n - 1 := by
    unfold rnShift; omega
  have hg : 2 ^ (rnShift fmt n 0 + 0) ≤ n := by
    calc 2 ^ (rnShift fmt n 0 + 0) ≤ 2 ^ (bitlen n - 1) := by
          apply Nat.pow_le_pow_right (by norm_num); omega
      _ ≤ n := hbl.1
  have hq : 1 ≤ n / 2 ^ (rnShift fmt n 0 + 0) :=
    (Nat.one_le_div_iff (Nat.pos_pow_of_pos _ (by norm_num))).mpr hg
  have hq2 := rnRound_ge (n / 2 ^ (rnShift fmt n 0 + 0))
    (n % 2 ^ (rnShift fmt n 0 + 0)) (2 ^ (rnShift fmt n 0 + 0))
  have hp : 1 ≤ 2 ^ rnShift fmt n 0 := Nat.one_le_two_pow
  calc 1 = 1 * 1 := by ring
    _ ≤ rnRound (n / 2 ^ (rnShift fmt n 0 + 0)) (n % 2 ^ (rnShift fmt n 0 + 0))
          (2 ^ (rnShift fmt n 0 + 0)) * 2 ^ rnShift fmt n 0 :=
        Nat.mul_le_mul (by omega) hp

/-! ### Wrapping arithmetic and the signed reinterpretation -/

theorem iwrap_eq_of_small (w : Nat) (z : Int) (hw : 1 ≤ w)
    (h1 : -(2 : Int) ^ (w - 1) ≤ z) (h2 : z < (2 : Int) ^ (w - 1)) :
    iwrap w z = z := by
  unfold iwrap
  have hp : (2 : Int) ^ w = 2 ^ (w - 1) * 2 := by
    conv_lhs => rw [show w = (w - 1) + 1 by omega]
    rw [pow_succ]
  rw [hp, Int.emod_eq_of_lt (by omega) (by omega)]
  omega

theorem iwrap_zero (w : Nat) (hw : 1 ≤ w) : iwrap w 0 = 0 := by
  have hpos : (0 : Int) < 2 ^ (w - 1) := by positivity
  exact iwrap_eq_of_small w 0 hw (by omega) hpos

theorem toInt_sub_small (fmt : Fmt) (a b : Nat)
    (ha : a < 2 ^ fmt.w) (hb : b < 2 ^ fmt.w)
    (hs : sgnB fmt a = sgnB fmt b) :
    (toInt fmt a - toInt fmt b).natAbs < 2 ^ (fmt.w - 1) := by
  have h1 : fmt.w - 1 = fmt.eb + fmt.mb := by simp [Fmt.w]
  have h2 : (2 : Nat) ^ fmt.w = 2 ^ (fmt.eb + fmt.mb) * 2 := by
    rw [Fmt.w, pow_succ]
  have hs2 : 2 ^ (fmt.eb + fmt.mb) ≤ a ↔ 2 ^ (fmt.eb + fmt.mb) ≤ b := by
    simpa [sgnB] using hs
  rw [h2] at ha hb
  unfold toInt
  rw [h1, h2]
  by_cases hca : a < 2 ^ (fmt.eb + fmt.mb)
  · rw [if_pos hca, if_pos (by omega : b < 2 ^ (fmt.eb + fmt.mb))]
    omega
  · rw [if_neg hca, if_neg (by omega : ¬b < 2 ^ (fmt.eb + fmt.mb))]
    omega

theorem fmtw_pos (fmt : Fmt) : 1 ≤ fmt.w := by
  simp [Fmt.w]

theorem signum_eq_iff (fmt : Fmt) (a b : Nat) :
    clsEq (signumF fmt a) (signumF fmt b) = true ↔
      isNaN fmt a = false ∧ isNaN fmt b = false ∧ sgnB fmt a = sgnB fmt b := by
  have hone : (0 : Int) < (2 : Int) ^ fmt.mb * (2 : Int) ^ (fmt.bias - 1) := by
    positivity
  cases hna : isNaN fmt a <;> cases hnb : isNaN fmt b <;>
    cases hsa : sgnB fmt a <;> cases hsb : sgnB fmt b <;>
      simp [signumF, hna, hnb, hsa, hsb, clsEq, clsEq_nan_left, clsEq_nan_right] <;>
        omega

theorem ulps_tail_eq (fmt : Fmt) (a b : Nat)
    (ha : a < 2 ^ fmt.w) (hb : b < 2 ^ fmt.w)
    (hs : sgnB fmt a = sgnB fmt b) :
    iwrap fmt.w ((iwrap fmt.w (toInt fmt a - toInt fmt b)).natAbs : Int)
      = ((toInt fmt a - toInt fmt b).natAbs : Int) := by
  have hw := fmtw_pos fmt
  have hsmall := toInt_sub_small fmt a b ha hb hs
  have hc : ((toInt fmt a - toInt fmt b).natAbs : Int) < (2 : Int) ^ (fmt.w - 1) := by
    calc ((toInt fmt a - toInt fmt b).natAbs : Int)
        < ((2 ^ (fmt.w - 1) : Nat) : Int) := by exact_mod_cast hsmall
      _ = (2 : Int) ^ (fmt.w - 1) := by push_cast; ring
  have h1 : iwrap fmt.w (toInt fmt a - toInt fmt b) = toInt fmt a - toInt fmt b := by
    apply iwrap_eq_of_small _ _ hw
    · omega
    · omega
  rw [h1]
  apply iwrap_eq_of_small _ _ hw
  · have : (0 : Int) < 2 ^ (fmt.w - 1) := by positivity
    omega
  · omega

/-! ### Classification lemmas -/

theorem classify_eq_nan_of_isNaN (fmt : Fmt) (x : Nat) (h : isNaN fmt x = true) :
    classify fmt x = .nan := by
  unfold isNaN at h
  simp only [Bool.and_eq_true, decide_eq_true_eq] at h
  unfold classify
  rw [if_pos h.1, if_neg h.2]

theorem isNaN_eq_false_iff (fmt : Fmt) (x : Nat) :
    isNaN fmt x = false ↔ classify fmt x ≠ .nan := by
  unfold isNaN classify
  by_cases h1 : expF fmt x = 2 ^ fmt.eb - 1
  · by_cases h2 : manF fmt x = 0 <;> simp [h1, h2]
  · simp only [h1, if_false]
    constructor
    · intro _
      split <;> simp
    · intro _
      simp [h1]

theorem classify_zero (fmt : Fmt) (heb : 1 ≤ fmt.eb) : classify fmt 0 = .fin 0 := by
  have h2 : 2 ≤ 2 ^ fmt.eb := by
    calc 2 = 2 ^ 1 := by norm_num
      _ ≤ 2 ^ fmt.eb := Nat.pow_le_pow_right (by norm_num) heb
  have hexp : expF fmt 0 = 0 := by simp [expF]
  have hman : manF fmt 0 = 0 := by simp [manF]
  have hsgn : sgnB fmt 0 = false := by
    simp [sgnB]
  unfold classify
  rw [hexp, if_neg (by omega), hsgn]
  simp [posMag, hexp, hman]

theorem expF_eq_div (fmt : Fmt) (x : Nat)
    (hx : x < (2 ^ fmt.eb - 1) * 2 ^ fmt.mb) :
    expF fmt x = x / 2 ^ fmt.mb := by
  have hP : 0 < (2 : Nat) ^ fmt.mb := Nat.pos_pow_of_pos _ (by norm_num)
  have hdiv : x / 2 ^ fmt.mb < 2 ^ fmt.eb - 1 :=
    Nat.div_lt_of_lt_mul (by rw [Nat.mul_comm] at hx; exact hx)
  have he : 0 < (2 : Nat) ^ fmt.eb := Nat.pos_pow_of_pos _ (by norm_num)
  unfold expF
  exact Nat.mod_eq_of_lt (by omega)

theorem classify_of_lt_top (fmt : Fmt) (x : Nat)
    (hx : x < (2 ^ fmt.eb - 1) * 2 ^ fmt.mb) :
    classify fmt x = .fin (posMag fmt x) ∧ sgnB fmt x = false := by
  have hP : 0 < (2 : Nat) ^ fmt.mb := Nat.pos_pow_of_pos _ (by norm_num)
  have hdiv : x / 2 ^ fmt.mb < 2 ^ fmt.eb - 1 :=
    Nat.div_lt_of_lt_mul (by rw [Nat.mul_comm] at hx; exact hx)
  have hexp : expF fmt x = x / 2 ^ fmt.mb := expF_eq_div fmt x hx
  have hsgn : sgnB fmt x = false := by
    have hle : (2 ^ fmt.eb - 1) * 2 ^ fmt.mb ≤ 2 ^ (fmt.eb + fmt.mb) := by
      rw [pow_add]
      exact Nat.mul_le_mul_right _ (Nat.sub_le _ _)
    simp only [sgnB, decide_eq_false_iff_not, not_le]
    omega
  refine ⟨?_, hsgn⟩
  unfold classify
  rw [if_neg (by omega), hsgn]
  simp

/-! ### Monotonicity of the magnitude map on positive finite patterns -/

theorem posMag_decomp (fmt : Fmt) (e m : Nat) (hm : m < 2 ^ fmt.mb)
    (he : e < 2 ^ fmt.eb - 1) :
    expF fmt (2 ^ fmt.mb * e + m) = e ∧ manF fmt (2 ^ fmt.mb * e + m) = m := by
  have hP : 0 < (2 : Nat) ^ fmt.mb := Nat.pos_pow_of_pos _ (by norm_num)
  have hlt : 2 ^ fmt.mb * e + m < (2 ^ fmt.eb - 1) * 2 ^ fmt.mb := by
    have h1 : 2 ^ fmt.mb * e + m < 2 ^ fmt.mb * (e + 1) := by
      rw [Nat.mul_add, Nat.mul_one]; omega
    have h2 : 2 ^ fmt.mb * (e + 1) ≤ 2 ^ fmt.mb * (2 ^ fmt.eb - 1) :=
      Nat.mul_le_mul_left _ (by omega)
    have h3 : 2 ^ fmt.mb * (2 ^ fmt.eb - 1) = (2 ^ fmt.eb - 1) * 2 ^ fmt.mb :=
      Nat.mul_comm _ _
    omega
  constructor
  · rw [expF_eq_div fmt _ hlt, Nat.mul_add_div hP, Nat.div_eq_of_lt hm,
      Nat.add_zero]
  · unfold manF
    rw [Nat.add_comm, Nat.add_mul_mod_self_left, Nat.mod_eq_of_lt hm]

theorem posMag_eval (fmt : Fmt) (e m : Nat) (hm : m < 2 ^ fmt.mb)
    (he : e < 2 ^ fmt.eb - 1) :
    posMag fmt (2 ^ fmt.mb * e + m)
      = if e = 0 then m else (2 ^ fmt.mb + m) * 2 ^ (e - 1) := by
  obtain ⟨h1, h2⟩ := posMag_decomp fmt e m hm he
  unfold posMag
  rw [h1, h2]

theorem posMag_succ (fmt : Fmt) (x : Nat)
    (h : x + 1 < (2 ^ fmt.eb - 1) * 2 ^ fmt.mb) :
    posMag fmt x < posMag fmt (x + 1) := by
  have hP : 0 < (2 : Nat) ^ fmt.mb := Nat.pos_pow_of_pos _ (by norm_num)
  have hx : x < (2 ^ fmt.eb - 1) * 2 ^ fmt.mb := by omega
  obtain ⟨e, m, hmlt, helt, hxeq⟩ :
      ∃ e m, m < 2 ^ fmt.mb ∧ e < 2 ^ fmt.eb - 1 ∧ x = 2 ^ fmt.mb * e + m :=
    ⟨x / 2 ^ fmt.mb, x % 2 ^ fmt.mb, Nat.mod_lt _ hP,
      Nat.div_lt_of_lt_mul (by rw [Nat.mul_comm] at hx; exact hx),
      (Nat.div_add_mod x _).symm⟩
  subst hxeq
  have hexp : 2 ^ fmt.mb * (e + 1) = 2 ^ fmt.mb * e + 2 ^ fmt.mb := by
    rw [Nat.mul_add, Nat.mul_one]
  rcases Nat.lt_or_ge (m + 1) (2 ^ fmt.mb) with hm1 | hm1
  · -- no carry into the exponent field
    have hx1 : 2 ^ fmt.mb * e + m + 1 = 2 ^ fmt.mb * e + (m + 1) := by omega
    rw [hx1, posMag_eval fmt e m hmlt helt, posMag_eval fmt e (m + 1) hm1 helt]
    by_cases he0 : e = 0
    · simp [he0]
    · rw [if_neg he0, if_neg he0]
      exact mul_lt_mul_of_pos_right (by omega) (by positivity)
  · -- the mantissa wraps and the exponent increments
    have hmeq : m + 1 = 2 ^ fmt.mb := by omega
    have hx1 : 2 ^ fmt.mb * e + m + 1 = 2 ^ fmt.mb * (e + 1) + 0 := by omega
    have he1 : e + 1 < 2 ^ fmt.eb - 1 := by
      rcases Nat.lt_or_ge (e + 1) (2 ^ fmt.eb - 1) with hgood | hbad
      · exact hgood
      · exfalso
        have hstep : 2 ^ fmt.mb * (2 ^ fmt.eb - 1) ≤ 2 ^ fmt.mb * (e + 1) :=
          Nat.mul_le_mul_left _ hbad
        have h3 : 2 ^ fmt.mb * (2 ^ fmt.eb - 1) = (2 ^ fmt.eb - 1) * 2 ^ fmt.mb :=
          Nat.mul_comm _ _
        omega
    rw [hx1, posMag_eval fmt e m hmlt helt, posMag_eval fmt (e + 1) 0 hP he1]
    rw [if_neg (by omega : ¬e + 1 = 0)]
    by_cases he0 : e = 0
    · simp [he0]
      omega
    · rw [if_neg he0]
      have hsplit : (e + 1) - 1 = (e - 1) + 1 := by omega
      rw [hsplit, pow_succ]
      have hlhs : 2 ^ fmt.mb + m < (2 ^ fmt.mb + 0) * 2 := by omega
      calc (2 ^ fmt.mb + m) * 2 ^ (e - 1)
          < (2 ^ fmt.mb + 0) * 2 * 2 ^ (e - 1) :=
            mul_lt_mul_of_pos_right hlhs (by positivity)
        _ = (2 ^ fmt.mb + 0) * (2 ^ (e - 1) * 2) := by ring

theorem posMag_lt_of_lt (fmt : Fmt) (x y : Nat) (hxy : x < y)
    (hy : y < (2 ^ fmt.eb - 1) * 2 ^ fmt.mb) :
    posMag fmt x < posMag fmt y := by
  induction y with
  | zero => omega
  | succ y ih =>
    rcases Nat.lt_or_ge x y with hlt | hge
    · exact lt_trans (ih hlt (by omega)) (posMag_succ fmt y hy)
    · have hxeq : x = y := by omega
      subst hxeq
      exact posMag_succ fmt x hy

/-! ### Evaluation lemmas for the predicates -/

theorem ulpsEq_eq_amended (fmt : Fmt) (a b eps U : Nat)
    (ha : a < 2 ^ fmt.w) (hb : b < 2 ^ fmt.w) :
    ulpsEq fmt a b eps U = ulpsClaimAmended fmt a b eps U := by
  simp only [ulpsEq, ulpsClaimAmended]
  cases h1 : clsLe (clsAbs (clsSub fmt (classify fmt a) (classify fmt b)))
      (classify fmt eps)
  · cases h2 : clsEq (signumF fmt a) (signumF fmt b)
    · simp
    · have hs := ((signum_eq_iff fmt a b).mp h2).2.2
      rw [ulps_tail_eq fmt a b ha hb hs]
  · simp

theorem ulpsEq_of_reach (fmt : Fmt) (a b eps U : Nat)
    (ha : a < 2 ^ fmt.w) (hb : b < 2 ^ fmt.w)
    (hna : isNaN fmt a = false) (hnb : isNaN fmt b = false)
    (hsg : sgnB fmt a = sgnB fmt b)
    (hd : clsLe (clsAbs (clsSub fmt (classify fmt a) (classify fmt b)))
      (classify fmt eps) = false) :
    ulpsEq fmt a b eps U
      = decide (((toInt fmt a - toInt fmt b).natAbs : Int)
          < iwrap fmt.w (U : Int)) := by
  have h2 : clsEq (signumF fmt a) (signumF fmt b) = true :=
    (signum_eq_iff fmt a b).mpr ⟨hna, hnb, hsg⟩
  simp only [ulpsEq]
  rw [hd, h2, if_neg (by simp : ¬(false = true)),
    if_neg (by simp : ¬((!true) = true))]
  rw [ulps_tail_eq fmt a b ha hb hsg]

theorem clsLe_abs_roundDyadic_zero (fmt : Fmt) (p : Int) (hp : p ≠ 0) :
    clsLe (clsAbs (roundDyadic fmt p 0)) (.fin 0) = false := by
  simp only [roundDyadic]
  rw [if_neg hp]
  have hn : 1 ≤ roundNat fmt p.natAbs 0 :=
    roundNat_pos fmt _ (by omega)
  by_cases hover : maxFinM fmt < roundNat fmt p.natAbs 0
  · rw [if_pos hover]
    rfl
  · rw [if_neg hover]
    by_cases hneg : p < 0
    · rw [if_pos hneg]
      simp only [clsAbs, Int.natAbs_neg, Int.natAbs_ofNat, clsLe,
        decide_eq_false_iff_not, not_le]
      exact_mod_cast hn
    · rw [if_neg hneg]
      simp only [clsAbs, Int.natAbs_ofNat, clsLe, decide_eq_false_iff_not, not_le]
      exact_mod_cast hn

theorem relativeEq_nan_left (fmt : Fmt) (x y eps maxRel : Nat)
    (hx : isNaN fmt x = true) : relativeEq fmt x y eps maxRel = false := by
  have hcx : classify fmt x = .nan := classify_eq_nan_of_isNaN fmt x hx
  simp only [relativeEq, hcx, clsSub_nan_left, clsAbs, clsEq_nan_left,
    clsLe_nan_left, Bool.false_and]
  simp

theorem relativeEq_nan_right (fmt : Fmt) (x y eps maxRel : Nat)
    (hy : isNaN fmt y = true) : relativeEq fmt x y eps maxRel = false := by
  have hcy : classify fmt y = .nan := classify_eq_nan_of_isNaN fmt y hy
  simp only [relativeEq, hcy, clsSub_nan_right, clsAbs, clsEq_nan_right,
    clsLe_nan_left, Bool.false_and]
  simp

theorem ulpsEq_nan_left (fmt : Fmt) (x y eps maxUlps : Nat)
    (hx : isNaN fmt x = true) : ulpsEq fmt x y eps maxUlps = false := by
  have hcx : classify fmt x = .nan := classify_eq_nan_of_isNaN fmt x hx
  simp only [ulpsEq, hcx, clsSub_nan_left, clsAbs, clsLe_nan_left, signumF, hx,
    if_true, clsEq_nan_left]
  simp

theorem ulpsEq_nan_right (fmt : Fmt) (x y eps maxUlps : Nat)
    (hy : isNaN fmt y = true) : ulpsEq fmt x y eps maxUlps = false := by
  have hcy : classify fmt y = .nan := classify_eq_nan_of_isNaN fmt y hy
  simp only [ulpsEq, hcy, clsSub_nan_right, clsAbs, clsLe_nan_left, signumF, hy,
    if_true, clsEq_nan_right]
  simp

theorem relativeEq_inf_opp (fmt : Fmt) (a b eps rho : Nat) (Ee : Int)
    (hca : classify fmt a = .inf false) (hcb : classify fmt b = .inf true)
    (he : classify fmt eps = .fin Ee) :
    relativeEq fmt a b eps rho = false := by
  simp only [relativeEq, hca, hcb, he, clsSub, clsAbs, clsEq, clsLe]
  simp

theorem clsSub_fin_self (fmt : Fmt) (M : Int) :
    clsSub fmt (.fin M) (.fin M) = .fin 0 := by
  simp [clsSub, roundDyadic]

theorem clsSub_inf_self (fmt : Fmt) (s : Bool) :
    clsSub fmt (.inf s) (.inf s) = .nan := by
  simp [clsSub]

theorem ulps_dist_eval (fmt : Fmt) (a b eps U : Nat) (Ma Mb : Int) (k : Nat)
    (ha : a < 2 ^ fmt.w) (hb : b < 2 ^ fmt.w)
    (hfa : classify fmt a = .fin Ma) (hfb : classify fmt b = .fin Mb)
    (hsg : sgnB fmt a = sgnB fmt b)
    (hk : (toInt fmt a - toInt fmt b).natAbs = k)
    (hd : clsLe (clsAbs (clsSub fmt (classify fmt a) (classify fmt b)))
      (classify fmt eps) = false) :
    ulpsEq fmt a b eps U = decide ((k : Int) < iwrap fmt.w (U : Int)) := by
  have hna : isNaN fmt a = false := (isNaN_eq_false_iff fmt a).mpr (by rw [hfa]; simp)
  have hnb : isNaN fmt b = false := (isNaN_eq_false_iff fmt b).mpr (by rw [hfb]; simp)
  rw [ulpsEq_of_reach fmt a b eps U ha hb hna hnb hsg hd, hk]

/-! ### The claims -/

set_option maxRecDepth 8000 in
/-- Claim C1, counterexample: for f32 with `max_ulps = 2^31`, the
operands `1.0` and the next float up are one ULP apart, so the claim's
clause `|i_a - i_b| < U` holds, yet `ulps_eq` returns false because the
code compares against `max_ulps as i32`, which is negative. -/
theorem c1_counterexample :
    ulpsEq f32 1065353216 1065353217 0 2147483648 = false ∧
    ulpsClaimSpec f32 1065353216 1065353217 0 2147483648 = true := by
  exact ⟨by decide, by decide⟩

/-- Claim C1 (amended): `ulps_eq(a, b, ε, U)` evaluates, in order, the
absolute short-circuit, the sign test, and then
`|i_a - i_b| < (U as iN)`, where the unsigned `max_ulps` is converted
to the same-width signed integer (for f64 this equals `U`; for f32 with
`U ≥ 2^31` the bound is negative). -/
theorem c1_ulps_iff_amended (fmt : Fmt) (a b eps U : Nat)
    (ha : a < 2 ^ fmt.w) (hb : b < 2 ^ fmt.w) :
    ulpsEq fmt a b eps U = ulpsClaimAmended fmt a b eps U :=
  ulpsEq_eq_amended fmt a b eps U ha hb

/-- Witness for the amended claim C1 at a concrete f32 input. -/
theorem c1_witness :
    ulpsEq f32 1065353216 1069547520 (epsBits f32) 4
      = ulpsClaimAmended f32 1065353216 1069547520 (epsBits f32) 4 :=
  c1_ulps_iff_amended f32 1065353216 1069547520 (epsBits f32) 4 (by decide) (by decide)

/-- Claim C2: for f32 and f64, `relative_eq(a, b, ε, ρ)` is exactly the
spec's four clauses evaluated in order: IEEE equality, then
`|a - b| ≤ ε`, then the `|a| = |b| ∧ |a - b| = |a|` guard returning
false, then `|a - b| ≤ max(|a|, |b|) · ρ`, and false otherwise. -/
theorem c2_relative_matches_spec :
    (∀ a b eps rho : Nat, relativeEq f32 a b eps rho = relClaimSpec f32 a b eps rho) ∧
    (∀ a b eps rho : Nat, relativeEq f64 a b eps rho = relClaimSpec f64 a b eps rho) :=
  ⟨fun _ _ _ _ => rfl, fun _ _ _ _ => rfl⟩

/-- Claim C3, counterexample: `x = +∞` is not NaN, yet with the
non-negative tolerance `ε = 0` and `U = 0` the ULP predicate is false
on `(x, x)`: the absolute difference `|∞ - ∞|` is NaN, so the
short-circuit fails, and the ULP distance 0 is not below `U = 0`. -/
theorem c3_counterexample :
    isNaN f32 2139095040 = false ∧ ulpsEq f32 2139095040 2139095040 0 0 = false := by
  exact ⟨by decide, by decide⟩

/-- Claim C3 (amended): for every non-NaN `x` and non-negative
tolerances, `relative_eq(x, x, ε, ρ)` is true; `ulps_eq(x, x, ε, U)` is
true for every finite `x`, while for infinite `x` it is true exactly
when `U` converted to the same-width signed integer is positive. -/
theorem c3_reflexivity_amended (fmt : Fmt) (x eps rho U : Nat)
    (hx : isNaN fmt x = false)
    (he : nonnegC (classify fmt eps) = true)
    (hr : nonnegC (classify fmt rho) = true) :
    relativeEq fmt x x eps rho = true ∧
    (∀ M : Int, classify fmt x = .fin M → ulpsEq fmt x x eps U = true) ∧
    (∀ s : Bool, classify fmt x = .inf s →
      (ulpsEq fmt x x eps U = true ↔ 0 < iwrap fmt.w (U : Int))) := by
  have hxnan : classify fmt x ≠ .nan := (isNaN_eq_false_iff fmt x).mp hx
  refine ⟨?_, ?_, ?_⟩
  · have h1 : clsEq (classify fmt x) (classify fmt x) = true :=
      clsEq_self_of_ne_nan _ hxnan
    simp [relativeEq, h1]
  · intro M hM
    simp [ulpsEq, hM, clsSub_fin_self, clsAbs,
      clsLe_zero_left_of_nonneg _ he]
  · intro s hs
    have hsg : clsEq (signumF fmt x) (signumF fmt x) = true :=
      (signum_eq_iff fmt x x).mpr ⟨hx, hx, rfl⟩
    simp only [ulpsEq, hs, clsSub_inf_self]
    rw [show clsAbs FpCls.nan = FpCls.nan from rfl, clsLe_nan_left, hsg,
      if_neg (by simp : ¬(false = true)), if_neg (by simp : ¬((!true) = true))]
    rw [sub_self, iwrap_zero fmt.w (fmtw_pos fmt)]
    simp only [Int.natAbs_zero, Nat.cast_zero]
    rw [iwrap_zero fmt.w (fmtw_pos fmt)]
    simp

/-- Witness for the amended claim C3 at `x = +∞` (f32), `ε = ρ = +0.0`,
`U = 1`. -/
theorem c3_witness :
    relativeEq f32 2139095040 2139095040 0 0 = true ∧
    ulpsEq f32 2139095040 2139095040 0 1 = true := by
  have h := c3_reflexivity_amended f32 2139095040 0 0 1 (by decide) (by decide)
    (by decide)
  exact ⟨h.1, (h.2.2 false (by decide)).mpr (by decide)⟩

/-- Claim C4, counterexample: the f32 subnormals with bit patterns 1
and 5 are finite, of the same sign, and exactly 4 ULPs apart, yet
`ulps_eq` under the default tolerances returns true, because their
absolute difference is far below the machine epsilon. -/
theorem c4_counterexample :
    classify f32 1 = .fin 1 ∧ classify f32 5 = .fin 5 ∧
    sgnB f32 1 = sgnB f32 5 ∧ (toInt f32 1 - toInt f32 5).natAbs = 4 ∧
    ulpsEq f32 1 5 (epsBits f32) defaultMaxUlps = true := by
  exact ⟨by decide, by decide, by decide, by decide, by decide⟩

/-- Claim C4 (amended): under the default tolerances, same-sign finite
floats exactly 4 ULPs apart are not `ulps_eq` unless the absolute
short-circuit `|a - b| ≤ εₘ` catches them, and same-sign finite floats
exactly 3 ULPs apart are always `ulps_eq`. -/
theorem c4_default_budget_amended :
    (∀ a b : Nat, ∀ Ma Mb : Int, a < 2 ^ f32.w → b < 2 ^ f32.w →
      classify f32 a = .fin Ma → classify f32 b = .fin Mb →
      sgnB f32 a = sgnB f32 b →
      ((toInt f32 a - toInt f32 b).natAbs = 4 →
        clsLe (clsAbs (clsSub f32 (classify f32 a) (classify f32 b)))
          (classify f32 (epsBits f32)) = false →
        ulpsEq f32 a b (epsBits f32) defaultMaxUlps = false) ∧
      ((toInt f32 a - toInt f32 b).natAbs = 3 →
        ulpsEq f32 a b (epsBits f32) defaultMaxUlps = true)) ∧
    (∀ a b : Nat, ∀ Ma Mb : Int, a < 2 ^ f64.w → b < 2 ^ f64.w →
      classify f64 a = .fin Ma → classify f64 b = .fin Mb →
      sgnB f64 a = sgnB f64 b →
      ((toInt f64 a - toInt f64 b).natAbs = 4 →
        clsLe (clsAbs (clsSub f64 (classify f64 a) (classify f64 b)))
          (classify f64 (epsBits f64)) = false →
        ulpsEq f64 a b (epsBits f64) defaultMaxUlps = false) ∧
      ((toInt f64 a - toInt f64 b).natAbs = 3 →
        ulpsEq f64 a b (epsBits f64) defaultMaxUlps = true)) := by
  constructor
  · intro a b Ma Mb ha hb hfa hfb hsg
    constructor
    · intro hk hd
      rw [ulps_dist_eval f32 a b (epsBits f32) defaultMaxUlps Ma Mb 4
        ha hb hfa hfb hsg hk hd]
      decide
    · intro hk
      by_cases hd : clsLe (clsAbs (clsSub f32 (classify f32 a) (classify f32 b)))
          (classify f32 (epsBits f32)) = true
      · simp [ulpsEq, hd]
      · simp only [Bool.not_eq_true] at hd
        rw [ulps_dist_eval f32 a b (epsBits f32) defaultMaxUlps Ma Mb 3
          ha hb hfa hfb hsg hk hd]
        decide
  · intro a b Ma Mb ha hb hfa hfb hsg
    constructor
    · intro hk hd
      rw [ulps_dist_eval f64 a b (epsBits f64) defaultMaxUlps Ma Mb 4
        ha hb hfa hfb hsg hk hd]
      decide
    · intro hk
      by_cases hd : clsLe (clsAbs (clsSub f64 (classify f64 a) (classify f64 b)))
          (classify f64 (epsBits f64)) = true
      · simp [ulpsEq, hd]
      · simp only [Bool.not_eq_true] at hd
        rw [ulps_dist_eval f64 a b (epsBits f64) defaultMaxUlps Ma Mb 3
          ha hb hfa hfb hsg hk hd]
        decide

/-- Witness for the amended claim C4: `1.0f32` and the float 3 ULPs
above it are `ulps_eq` under the defaults. -/
theorem c4_witness :
    ulpsEq f32 1065353216 1065353219 (epsBits f32) defaultMaxUlps = true :=
  ((c4_default_budget_amended.1 1065353216 1065353219
    (713623846352979940529142984724747568191373312 : Int)
    (713624101564755131232990582255703142017531904 : Int)
    (by decide) (by decide) (by decide) (by decide) (by decide)).2 (by decide))

/-- Claim C5, counterexample: with `a = 1.0f32`, `k = 0` and `U = 0`
the claim demands `ulps_eq(a, a, 0, 0) = (0 < 0) = false`, but the
absolute short-circuit `|a - a| ≤ 0` makes the code return true. -/
theorem c5_counterexample :
    ulpsEq f32 1065353216 1065353216 0 0 = true ∧ ¬((0 : Nat) < 0) := by
  exact ⟨by decide, by omega⟩

/-- Claim C5 (amended): for a positive finite `a` (bit pattern `a ≥ 1`
with `next_up^k(a) = a + k` still finite), `ulps_eq(a, next_up^k(a), 0, U)`
is true iff `k = 0` or `k` is strictly below `U` converted to the
same-width signed integer. -/
theorem c5_ulps_monotone_amended (fmt : Fmt) (a k U : Nat)
    (heb : 1 ≤ fmt.eb) (ha : 1 ≤ a)
    (hb : a + k < (2 ^ fmt.eb - 1) * 2 ^ fmt.mb) :
    ulpsEq fmt a (a + k) 0 U = true ↔
      (k = 0 ∨ (k : Int) < iwrap fmt.w (U : Int)) := by
  obtain ⟨hca, hsa⟩ := classify_of_lt_top fmt a (by omega)
  obtain ⟨hcb, hsb⟩ := classify_of_lt_top fmt (a + k) hb
  have hz : classify fmt 0 = .fin 0 := classify_zero fmt heb
  have htop : (2 ^ fmt.eb - 1) * 2 ^ fmt.mb ≤ 2 ^ (fmt.w - 1) := by
    have h1 : fmt.w - 1 = fmt.eb + fmt.mb := by simp [Fmt.w]
    rw [h1, pow_add]
    exact Nat.mul_le_mul_right _ (Nat.sub_le _ _)
  have hww : 2 ^ (fmt.w - 1) ≤ 2 ^ fmt.w :=
    Nat.pow_le_pow_right (by norm_num) (by omega)
  rcases Nat.eq_zero_or_pos k with hk0 | hkpos
  · subst hk0
    have hul : ulpsEq fmt a (a + 0) 0 U = true := by
      simp only [Nat.add_zero]
      simp [ulpsEq, hca, hz, clsSub_fin_self, clsAbs, clsLe]
    exact ⟨fun _ => Or.inl rfl, fun _ => hul⟩
  · have hMlt : posMag fmt a < posMag fmt (a + k) :=
      posMag_lt_of_lt fmt a (a + k) (by omega) hb
    have hstep1 : clsLe (clsAbs (clsSub fmt (classify fmt a) (classify fmt (a + k))))
        (classify fmt 0) = false := by
      rw [hca, hcb, hz]
      show clsLe (clsAbs (roundDyadic fmt
        ((posMag fmt a : Int) - (posMag fmt (a + k) : Int)) 0)) (.fin 0) = false
      exact clsLe_abs_roundDyadic_zero fmt _ (by omega)
    have hna : isNaN fmt a = false := (isNaN_eq_false_iff fmt a).mpr (by rw [hca]; simp)
    have hnb : isNaN fmt (a + k) = false :=
      (isNaN_eq_false_iff fmt (a + k)).mpr (by rw [hcb]; simp)
    have hres := ulpsEq_of_reach fmt a (a + k) 0 U (by omega) (by omega) hna hnb
      (hsa.trans hsb.symm) hstep1
    rw [hres]
    have htoa : toInt fmt a = (a : Int) := by
      unfold toInt
      rw [if_pos (by omega)]
    have htob : toInt fmt (a + k) = ((a + k : Nat) : Int) := by
      unfold toInt
      rw [if_pos (by omega)]
    have hnab : (toInt fmt a - toInt fmt (a + k)).natAbs = k := by
      rw [htoa, htob]
      omega
    rw [hnab]
    simp only [decide_eq_true_eq]
    constructor
    · intro h
      exact Or.inr h
    · rintro (h | h)
    
      · exact absurd h (by omega)
      · exact h

/-- Witness for the amended claim C5: `1.0f32` against its successor
with `U = 4`. -/
theorem c5_witness : ulpsEq f32 1065353216 (1065353216 + 1) 0 4 = true :=
  (c5_ulps_monotone_amended f32 1065353216 1 4 (by decide) (by decide)
    (by decide)).mpr (Or.inr (by decide))

/-- Claim C6: a NaN operand makes both predicates false, in either
operand position, for all tolerance arguments. -/
theorem c6_nan_rejection (fmt : Fmt) (x y eps maxRel maxUlps : Nat)
    (hx : isNaN fmt x = true) :
    ulpsEq fmt x y eps maxUlps = false ∧ ulpsEq fmt y x eps maxUlps = false ∧
    relativeEq fmt x y eps maxRel = false ∧ relativeEq fmt y x eps maxRel = false :=
  ⟨ulpsEq_nan_left fmt x y eps maxUlps hx, ulpsEq_nan_right fmt y x eps maxUlps hx,
    relativeEq_nan_left fmt x y eps maxRel hx,
    relativeEq_nan_right fmt y x eps maxRel hx⟩

/-- Witness for claim C6: the f32 quiet NaN against `1.0` under the
default tolerances. -/
theorem c6_witness : ulpsEq f32 2143289344 1065353216 (epsBits f32) defaultMaxUlps
    = false :=
  (c6_nan_rejection f32 2143289344 1065353216 (epsBits f32) (epsBits f32)
    defaultMaxUlps (by decide)).1

/-- Claim C7: for every finite `ε` and finite `ρ`,
`relative_eq(+∞, -∞, ε, ρ)` is false for both widths, and the
`|a| = |b| ∧ |a - b| = |a|` guard condition evaluates true there, which
is what forces the negative result before the relative clause. -/
theorem c7_opposite_infinity :
    (∀ eps rho : Nat, ∀ Ee Er : Int,
      classify f32 eps = .fin Ee → classify f32 rho = .fin Er →
      relativeEq f32 (posInfBits f32) (negInfBits f32) eps rho = false) ∧
    (∀ eps rho : Nat, ∀ Ee Er : Int,
      classify f64 eps = .fin Ee → classify f64 rho = .fin Er →
      relativeEq f64 (posInfBits f64) (negInfBits f64) eps rho = false) ∧
    (clsEq (clsAbs (classify f32 (posInfBits f32)))
        (clsAbs (classify f32 (negInfBits f32)))
      && clsEq (clsAbs (clsSub f32 (classify f32 (posInfBits f32))
          (classify f32 (negInfBits f32))))
        (clsAbs (classify f32 (posInfBits f32)))) = true ∧
    (clsEq (clsAbs (classify f64 (posInfBits f64)))
        (clsAbs (classify f64 (negInfBits f64)))
      && clsEq (clsAbs (clsSub f64 (classify f64 (posInfBits f64))
          (classify f64 (negInfBits f64))))
        (clsAbs (classify f64 (posInfBits f64)))) = true := by
  refine ⟨?_, ?_, by decide, by decide⟩
  · intro eps rho Ee Er he _
    exact relativeEq_inf_opp f32 _ _ eps rho Ee (by decide) (by decide) he
  · intro eps rho Ee Er he _
    exact relativeEq_inf_opp f64 _ _ eps rho Ee (by decide) (by decide) he

/-- Witness for claim C7: `ε = ρ = +0.0` on f32. -/
theorem c7_witness :
    relativeEq f32 (posInfBits f32) (negInfBits f32) 0 0 = false :=
  c7_opposite_infinity.1 0 0 0 0 (by decide) (by decide)

/-- Claim C8: each builder method replaces exactly its named field and
keeps the other, so chained calls are order-independent, in particular
from the default configurators. -/
theorem c8_builder_frame :
    ∀ (E : Type) (c : Relative E) (d : Ulps E) (e r : E) (u : Nat) (fmt : Fmt)
      (e2 r2 u2 : Nat),
      (c.setEpsilon e).epsilon = e ∧
      (c.setEpsilon e).max_relative = c.max_relative ∧
      (c.setMaxRelative r).max_relative = r ∧
      (c.setMaxRelative r).epsilon = c.epsilon ∧
      (c.setEpsilon e).setMaxRelative r = (c.setMaxRelative r).setEpsilon e ∧
      (d.setEpsilon e).epsilon = e ∧
      (d.setEpsilon e).max_ulps = d.max_ulps ∧
      (d.setMaxUlps u).max_ulps = u ∧
      (d.setMaxUlps u).epsilon = d.epsilon ∧
      (d.setEpsilon e).setMaxUlps u = (d.setMaxUlps u).setEpsilon e ∧
      ((relativeDefault fmt).setEpsilon e2).setMaxRelative r2
        = ((relativeDefault fmt).setMaxRelative r2).setEpsilon e2 ∧
      ((ulpsDefault fmt).setEpsilon e2).setMaxUlps u2
        = ((ulpsDefault fmt).setMaxUlps u2).setEpsilon e2 := by
  intro E c d e r u fmt e2 r2 u2
  exact ⟨rfl, rfl, rfl, rfl, rfl, rfl, rfl, rfl, rfl, rfl, rfl, rfl⟩

/-- Claim C9: when `ulps_eq` reaches the bit-pattern comparison (the
epsilon short-circuit failed and the signum test passed), both operands
are non-NaN with equal sign bits, the signed difference is strictly
inside the representable range (so the subtraction cannot overflow),
and it is never the minimum signed integer (so the absolute value is
well defined). -/
theorem c9_no_overflow (fmt : Fmt) (a b eps : Nat)
    (ha : a < 2 ^ fmt.w) (hb : b < 2 ^ fmt.w)
    (hdiff : clsLe (clsAbs (clsSub fmt (classify fmt a) (classify fmt b)))
      (classify fmt eps) = false)
    (hsig : clsEq (signumF fmt a) (signumF fmt b) = true) :
    isNaN fmt a = false ∧ isNaN fmt b = false ∧ sgnB fmt a = sgnB fmt b ∧
    (toInt fmt a - toInt fmt b).natAbs < 2 ^ (fmt.w - 1) ∧
    iwrap fmt.w (toInt fmt a - toInt fmt b) = toInt fmt a - toInt fmt b ∧
    iwrap fmt.w (toInt fmt a - toInt fmt b) ≠ -((2 ^ (fmt.w - 1) : Nat) : Int) := by
  obtain ⟨hna, hnb, hsg⟩ := (signum_eq_iff fmt a b).mp hsig
  have hsmall := toInt_sub_small fmt a b ha hb hsg
  have hcast : ((toInt fmt a - toInt fmt b).natAbs : Int)
      < ((2 ^ (fmt.w - 1) : Nat) : Int) := by exact_mod_cast hsmall
  have hpow : ((2 ^ (fmt.w - 1) : Nat) : Int) = (2 : Int) ^ (fmt.w - 1) := by
    push_cast
    ring
  have hid : iwrap fmt.w (toInt fmt a - toInt fmt b) = toInt fmt a - toInt fmt b := by
    apply iwrap_eq_of_small _ _ (fmtw_pos fmt) <;> omega
  refine ⟨hna, hnb, hsg, hsmall, hid, ?_⟩
  rw [hid]
  omega

set_option maxRecDepth 8000 in
/-- Witness for claim C9: `1.0f32` and `2.0f32` with `ε = +0.0`. -/
theorem c9_witness :
    (toInt f32 1065353216 - toInt f32 1073741824).natAbs < 2 ^ (f32.w - 1) :=
  (c9_no_overflow f32 1065353216 1073741824 0 (by decide) (by decide) (by decide)
    (by decide)).2.2.2.1

/-- Claim C10: for f32 with `max_ulps ≥ 2^31` (a u32 value), the cast
`max_ulps as i32` is negative, the ULP clause can never hold, and
`ulps_eq` degenerates to the absolute-difference short-circuit. -/
theorem c10_large_max_ulps (a b eps U : Nat)
    (ha : a < 2 ^ 32) (hb : b < 2 ^ 32) (hU1 : 2 ^ 31 ≤ U) (hU2 : U < 2 ^ 32) :
    iwrap 32 (U : Int) < 0 ∧
    ulpsEq f32 a b eps U
      = clsLe (clsAbs (clsSub f32 (classify f32 a) (classify f32 b)))
          (classify f32 eps) := by
  have e1 : ((2 : Int) ^ (32 - 1)) = 2147483648 := by norm_num
  have e2 : ((2 : Int) ^ 32) = 4294967296 := by norm_num
  have e3 : (2 : Nat) ^ 31 = 2147483648 := by norm_num
  have e4 : (2 : Nat) ^ 32 = 4294967296 := by norm_num
  rw [e3] at hU1
  rw [e4] at hU2
  have hneg : iwrap 32 (U : Int) < 0 := by
    unfold iwrap
    rw [e1, e2]
    omega
  refine ⟨hneg, ?_⟩
  have haw : a < 2 ^ f32.w := by rw [e4] at ha; exact ha
  have hbw : b < 2 ^ f32.w := by rw [e4] at hb; exact hb
  cases h1 : clsLe (clsAbs (clsSub f32 (classify f32 a) (classify f32 b)))
      (classify f32 eps)
  · cases h2 : clsEq (signumF f32 a) (signumF f32 b)
    · simp [ulpsEq, h1, h2]
    · obtain ⟨hna, hnb, hsg⟩ := (signum_eq_iff f32 a b).mp h2
      rw [ulpsEq_of_reach f32 a b eps U haw hbw hna hnb hsg h1]
      have hnot : ¬(((toInt f32 a - toInt f32 b).natAbs : Int)
          < iwrap f32.w (U : Int)) := by
        have h0 : (0 : Int) ≤ ((toInt f32 a - toInt f32 b).natAbs : Int) := by
          positivity
        have hsame : iwrap f32.w (U : Int) = iwrap 32 (U : Int) := rfl
        omega
      exact decide_eq_false hnot
  · simp [ulpsEq, h1]

/-- Witness for claim C10: `1.0f32` against its successor with
`ε = +0.0` and `max_ulps = 2^31`. -/
theorem c10_witness :
    ulpsEq f32 1065353216 1065353217 0 2147483648
      = clsLe (clsAbs (clsSub f32 (classify f32 1065353216) (classify f32 1065353217)))
          (classify f32 0) :=
  (c10_large_max_ulps 1065353216 1065353217 0 2147483648 (by norm_num) (by norm_num)
    (by norm_num) (by norm_num)).2
